import Mathlib

/-!
Verification development for the daily-WOD → Notion sync pipeline.

The JavaScript sources are modelled by a shallow embedding:
* strings are `List Char` (`Str`), so JS string primitives (`split`, `trim`,
  `slice`, regex tests) become explicit list functions;
* the Notion HTTP API is modelled by pure functions over the stored state
  (a list of child blocks, a list of database records); a page request with
  `page_size` and a cursor becomes `drop cursor |>.take pageSize`;
* functions whose JS loop consumes a variable number of elements per
  iteration are written with an explicit fuel argument (initialised with a
  provably sufficient value) so that they stay structurally recursive.
-/

abbrev Str := List Char

/-- The whitespace characters of JS (`\s` in regexes, `String.prototype.trim`):
tab, LF, VT, FF, CR, space, NBSP, the Unicode space separators, the line/paragraph
separators and the BOM. -/
def wsChars : Str :=
  ['\t', '\n', '\x0B', '\x0C', '\r', ' ', ' ', ' ', ' ', ' ',
   ' ', ' ', ' ', ' ', ' ', ' ', ' ', ' ',
   ' ', ' ', ' ', ' ', ' ', '　', '﻿']

/-- `isWs c` holds exactly when `c` is JS whitespace. -/
def isWs (c : Char) : Bool := wsChars.contains c

/-- Helper for the line splitter: prepend a character to the first line of an
already-split tail. -/
def consHead (c : Char) : List Str → List Str
  | [] => [[c]]
  | h :: t => (c :: h) :: t

/-- `text.split(/\r?\n/)`: split at every LF, consuming one CR immediately
before the LF; a lone CR stays inside its line. -/
def splitLinesJS : Str → List Str
  | [] => [[]]
  | '\n' :: r => [] :: splitLinesJS r
  | '\r' :: '\n' :: r => [] :: splitLinesJS r
  | c :: r => consHead c (splitLinesJS r)

/-- `iso.split('-')` and friends: split at every occurrence of a separator char. -/
def splitOnChar (sep : Char) : Str → List Str
  | [] => [[]]
  | c :: r => if c = sep then [] :: splitOnChar sep r else consHead c (splitOnChar sep r)

/-- Drop JS whitespace from the front of a string. -/
def trimLeftJS (l : Str) : Str := l.dropWhile isWs

/-- Drop JS whitespace from the end of a string. -/
def trimRightJS (l : Str) : Str := (l.reverse.dropWhile isWs).reverse

/-- `s.trim()`: drop JS whitespace from both ends. -/
def trimJS (l : Str) : Str := trimRightJS (trimLeftJS l)

/-- `array.join('\n')` for an array of lines. -/
def joinNl : List Str → Str
  | [] => []
  | l :: ls =>
    match ls with
    | [] => l
    | _ :: _ => l ++ '\n' :: joinNl ls

/-- The boilerplate cancellation phrase of the first filter regex
(`/NO RESERVATION, NO CLASS\./i`), already upper-case. -/
def noResPhrase : Str := "NO RESERVATION, NO CLASS.".data

/-- Upper-case every character (ASCII case-insensitivity of the `i` regex flag). -/
def upperChars (l : Str) : Str := l.map Char.toUpper

/-- `/NO RESERVATION, NO CLASS\./i.test(line)`: the line contains the fixed
phrase, case-insensitively (the phrase matches at some position). -/
def testNoRes (line : Str) : Bool :=
  (upperChars line).tails.any fun s => noResPhrase.isPrefixOf s

/-- Match a literal pattern case-insensitively against the front of a string,
returning the remainder on success. -/
def stripPrefixCI : Str → Str → Option Str
  | [], l => some l
  | _ :: _, [] => none
  | p :: ps, c :: cs => if c.toUpper = p.toUpper then stripPrefixCI ps cs else none

/-- Match `\s+` (one or more JS whitespace characters, greedily) against the
front of a string, returning the remainder on success. -/
def dropWs1 : Str → Option Str
  | [] => none
  | c :: r => if isWs c then some (r.dropWhile isWs) else none

/-- Match the regex atom `5` against the front of a string. -/
def match5 : Str → Option Str
  | c :: r => if c = '5' then some r else none
  | [] => none

/-- Match the regex `MORE THAN\s+5\s+MIN` (with the `i` flag) against the front
of a string, returning the remainder after the match: the literal `MORE THAN`
(case-insensitive), then `\s+`, then `5`, then `\s+`, then `MIN`
(case-insensitive). -/
def m5Munch (l : Str) : Option Str :=
  (stripPrefixCI "MORE THAN".data l).bind fun r1 =>
  (dropWs1 r1).bind fun r2 =>
  (match5 r2).bind fun r3 =>
  (dropWs1 r3).bind fun r4 =>
  stripPrefixCI "MIN".data r4

/-- `/MORE THAN\s+5\s+MIN/i.test(line)`: the pattern matches at some position. -/
def testM5 (line : Str) : Bool := line.tails.any fun s => (m5Munch s).isSome

/-- Fueled worker for `text.replace(/\n{3,}/g, '\n\n')`: every maximal run of
three or more LFs becomes exactly two LFs.  The fuel only makes the recursion
structural; `collapseNl` initialises it so that it never runs out. -/
def collapseNlF : Nat → Str → Str
  | 0, l => l
  | _ + 1, [] => []
  | f + 1, c :: r =>
    if c = '\n' then
      (if (r.takeWhile (· == '\n')).length + 1 ≥ 3 then ['\n', '\n']
       else c :: r.takeWhile (· == '\n')) ++ collapseNlF f (r.dropWhile (· == '\n'))
    else c :: collapseNlF f r

/-- `text.replace(/\n{3,}/g, '\n\n')`. -/
def collapseNl (l : Str) : Str := collapseNlF l.length l

/-- `stripAnnoyingLines` from `daily_wod_to_notion_db.mjs`: split into lines,
drop the lines matched by the two boilerplate regexes, re-join with LF,
collapse LF runs, and trim. -/
def stripAnnoyingLines (text : Str) : Str :=
  trimJS (collapseNl (joinNl
    (((splitLinesJS text).filter fun line => !testNoRes line).filter
      fun line => !testM5 line)))

/-- One parsed schedule entry (the object pushed by `parseWodPage`). -/
structure WodEntry where
  date : Str
  loc : Str
  program : Str
  body : Str
  deriving DecidableEq, Repr

/-- `line.match(/^####\s+(\d{2}\/\d{2}\/\d{4})\s*$/)` on an already-trimmed
line, returning the captured date `DD/MM/YYYY` on success. -/
def matchDateHeader (l : Str) : Option Str :=
  match l with
  | '#' :: '#' :: '#' :: '#' :: rest =>
    match dropWs1 rest with
    | none => none
    | some r =>
      match r with
      | a :: b :: '/' :: c :: d :: '/' :: e :: f :: g :: h :: tail =>
        if a.isDigit && b.isDigit && c.isDigit && d.isDigit && e.isDigit &&
            f.isDigit && g.isDigit && h.isDigit && tail.all isWs then
          some [a, b, '/', c, d, '/', e, f, g, h]
        else none
      | _ => none
  | _ => none

/-- The body-loop test `/^####\s+\d{2}\/\d{2}\/\d{4}\s*$/.test(line.trim())`. -/
def isDateHeaderLine (l : Str) : Bool := (matchDateHeader (trimJS l)).isSome

/-- `line.replace(/^####\s+/, '')`: remove a leading `####` plus following
whitespace if present, otherwise return the line unchanged. -/
def stripHeaderMarks (l : Str) : Str :=
  match l with
  | '#' :: '#' :: '#' :: '#' :: rest =>
    match dropWs1 rest with
    | some r => r
    | none => l
  | _ => l

/-- Fueled worker for the scanning loop of `parseWodPage`.  Each iteration of
the JS `while` either advances one line (no date header) or consumes the
header, the two offset-captured lines and the body run; the fuel, initialised
to the number of lines, therefore suffices. -/
def parseLinesGo : Nat → Str → List Str → List WodEntry
  | 0, _, _ => []
  | _ + 1, _, [] => []
  | f + 1, target, l0 :: rest =>
    match matchDateHeader (trimJS l0) with
    | none => parseLinesGo f target rest
    | some date =>
      let locLine := trimJS ((rest[1]?).getD ((rest[0]?).getD []))
      let progLine := trimJS ((rest[2]?).getD ((rest[1]?).getD []))
      let loc := trimJS (stripHeaderMarks locLine)
      let program := trimJS (stripHeaderMarks progLine)
      let after := rest.drop 3
      let bodyLines := after.takeWhile fun x => !isDateHeaderLine x
      let rest2 := after.dropWhile fun x => !isDateHeaderLine x
      (if date = target then
        [{ date := date, loc := loc, program := program,
           body := stripAnnoyingLines (joinNl bodyLines) }]
       else []) ++ parseLinesGo f target rest2

/-- Run the scanner on a list of lines. -/
def parseLines (target : Str) (ls : List Str) : List WodEntry :=
  parseLinesGo ls.length target ls

/-- `parseWodPage(markdown, targetDDMMYYYY)` from `daily_wod_to_notion_db.mjs`. -/
def parseWodPage (markdown : Str) (targetDDMMYYYY : Str) : List WodEntry :=
  parseLines targetDDMMYYYY (splitLinesJS markdown)

/-- JS `.trim()` called on a possibly-`undefined` value: calling a method on
`undefined` throws a `TypeError`, modelled as `Except.error ()`. -/
def jsTrimE : Option Str → Except Unit Str
  | none => Except.error ()
  | some l => Except.ok (trimJS l)

/-- Exception-aware variant of `parseLinesGo`, where the two line accesses
guarded by `?? ''` in the source are modelled as optional values whose `trim`
would throw on `undefined`. -/
def parseLinesGoE : Nat → Str → List Str → Except Unit (List WodEntry)
  | 0, _, _ => Except.ok []
  | _ + 1, _, [] => Except.ok []
  | f + 1, target, l0 :: rest =>
    match matchDateHeader (trimJS l0) with
    | none => parseLinesGoE f target rest
    | some date =>
      match jsTrimE (((rest[1]?).orElse fun _ => rest[0]?).orElse fun _ => some []) with
      | Except.error e => Except.error e
      | Except.ok locLine =>
        match jsTrimE (((rest[2]?).orElse fun _ => rest[1]?).orElse fun _ => some []) with
        | Except.error e => Except.error e
        | Except.ok progLine =>
          let loc := trimJS (stripHeaderMarks locLine)
          let program := trimJS (stripHeaderMarks progLine)
          let after := rest.drop 3
          let bodyLines := after.takeWhile fun x => !isDateHeaderLine x
          let rest2 := after.dropWhile fun x => !isDateHeaderLine x
          match parseLinesGoE f target rest2 with
          | Except.error e => Except.error e
          | Except.ok es =>
            Except.ok ((if date = target then
              [{ date := date, loc := loc, program := program,
                 body := stripAnnoyingLines (joinNl bodyLines) }]
             else []) ++ es)

/-- Exception-aware variant of `parseWodPage`. -/
def parseWodPageE (markdown : Str) (targetDDMMYYYY : Str) : Except Unit (List WodEntry) :=
  parseLinesGoE (splitLinesJS markdown).length targetDDMMYYYY (splitLinesJS markdown)

/-- Fueled worker for the chunking loop of `notionRichText`
(`for (let i = 0; i < s.length; i += max) chunks.push(s.slice(i, i + max))`
with `max = 1800`). -/
def chunksF : Nat → Str → List Str
  | 0, _ => []
  | _ + 1, [] => []
  | f + 1, c :: r => ((c :: r).take 1800) :: chunksF f ((c :: r).drop 1800)

/-- `notionRichText(content)`: empty list for blank text, otherwise the ordered
1800-character chunks.  Each chunk stands for one `{type:'text', text:{content}}`
item, represented by its `content` string. -/
def notionRichText (content : Str) : List Str :=
  if trimJS content = [] then [] else chunksF content.length content

/-- One Notion block as seen by `blocks/{id}/children`. -/
structure Block where
  id : Str
  type : Str
  deriving DecidableEq, Repr

/-- One row of the Notion database, holding exactly the properties written by
`createWodRow`: the rich-text arrays are represented by their `content`
strings, the `select` by its name. -/
structure DbRecord where
  title : List Str
  date : Str
  location : List Str
  typeName : Str
  source : Str
  wod : List Str
  deriving DecidableEq, Repr

/-- The Notion `blocks/{id}/children` API for `page_size=100`: given the stored
children and a start cursor it returns one page, the `has_more` flag and the
`next_cursor`. -/
def listChildrenPage (children : List Block) (cursor : Nat) : List Block × Bool × Nat :=
  ((children.drop cursor).take 100, decide (cursor + 100 < children.length), cursor + 100)

/-- `getChildDatabaseId`: issue a single `page_size=100` request (no cursor) and
look for a `child_database` block among the returned results. -/
def getChildDatabaseIdM (children : List Block) : Except Str Str :=
  match (listChildrenPage children 0).1.find? (fun b => b.type == "child_database".data) with
  | some db => Except.ok db.id
  | none => Except.error "No child_database found under target page.".data

/-- Fueled worker for the pagination loop of `notion_inspect_page.mjs` `main`:
request a page from the current cursor, process every returned block (the
accumulator is the stream of processed blocks, from which `n` is the length and
the sample the first 40), stop when `has_more` is false. -/
def inspectGo (children : List Block) : Nat → Nat → List Block → List Block
  | 0, _, acc => acc
  | f + 1, cursor, acc =>
    let page := listChildrenPage children cursor
    let acc2 := acc ++ page.1
    if page.2.1 then inspectGo children f page.2.2 acc2 else acc2

/-- All blocks processed by the diagnostic lister's pagination loop. -/
def inspectAllBlocks (children : List Block) : List Block :=
  inspectGo children (children.length + 1) 0 []

/-- The dedup key derived from a stored row in `queryExistingForDate`:
`${loc}__${type}` with `loc` the joined plain text of the Location rich text
and `type` the select name. -/
def keyOfRecord (r : DbRecord) : Str := r.location.flatten ++ "__".data ++ r.typeName

/-- The Notion database query API: filter `Date equals iso`, drop up to the
cursor, return at most `pageSize` rows and the `has_more` flag. -/
def databaseQueryPage (records : List DbRecord) (iso : Str) (pageSize cursor : Nat) :
    List DbRecord × Bool :=
  (((records.filter fun r => r.date == iso).drop cursor).take pageSize,
   decide (cursor + pageSize < (records.filter fun r => r.date == iso).length))

/-- `queryExistingForDate`: issue one query with `page_size: 100` (no start
cursor) and collect the dedup key of every returned row.  The JS `Set` is
modelled as the list of keys, used only through membership. -/
def queryExistingForDate (iso : Str) (records : List DbRecord) : List Str :=
  (databaseQueryPage records iso 100 0).1.map keyOfRecord

/-- The dedup key `${e.loc}__${e.program}` computed in the `main` loop. -/
def keyOfEntry (e : WodEntry) : Str := e.loc ++ "__".data ++ e.program

/-- `createWodRow`: build the stored row for one entry.  The title is the
truncated `${isoDate} — ${loc} — ${program}`, the Type select falls back to
`'WOD'` for an empty program. -/
def createWodRow (isoDate : Str) (e : WodEntry) : DbRecord :=
  { title := notionRichText ((isoDate ++ " — ".data ++ e.loc ++ " — ".data ++ e.program).take 180)
    date := isoDate
    location := notionRichText e.loc
    typeName := if e.program = [] then "WOD".data else e.program
    source := "https://vfuae.com/wod/".data
    wod := notionRichText e.body }

/-- The create/skip loop of `main`: for each entry in order, skip if its key is
in the pre-computed existing set, otherwise append the created row.  The
existing set is never updated inside the loop, exactly as in the source. -/
def syncLoop (iso : Str) (existing : List Str) :
    List WodEntry → Nat × Nat × List DbRecord → Nat × Nat × List DbRecord
  | [], acc => acc
  | e :: es, (created, skipped, recs) =>
    if existing.contains (keyOfEntry e) then
      syncLoop iso existing es (created, skipped + 1, recs)
    else
      syncLoop iso existing es (created + 1, skipped, recs ++ [createWodRow iso e])

/-- One sync pass over a fixed entry list against the stored rows: query the
existing keys for the date, then run the create/skip loop. -/
def syncOnce (iso : Str) (entries : List WodEntry) (records : List DbRecord) :
    Nat × Nat × List DbRecord :=
  syncLoop iso (queryExistingForDate iso records) entries (0, 0, records)

/-- `ddmmyyyyFromISO`: destructure `iso.split('-')` as `[y, m, d]` and render
`${d}/${m}/${y}` (a missing part renders as JS `undefined`). -/
def ddmmyyyyFromISO (iso : Str) : Str :=
  (((splitOnChar '-' iso)[2]?).getD "undefined".data) ++ "/".data ++
    (((splitOnChar '-' iso)[1]?).getD "undefined".data) ++ "/".data ++
    (((splitOnChar '-' iso)[0]?).getD "undefined".data)

/-- The remote operations `main` can issue, in order. -/
inductive NotionOp where
  | listChildren : NotionOp
  | query : NotionOp
  | create : NotionOp
  deriving DecidableEq, Repr

/-- The remote state `main` interacts with: the children of the configured page
and the rows of the child database. -/
structure World where
  children : List Block
  records : List DbRecord

/-- The error message thrown by `main` when no entry matches the target date. -/
def noEntriesMsg (ddmm : Str) : Str := "No entries found for ".data ++ ddmm ++ ".".data

/-- `main` from `daily_wod_to_notion_db.mjs`, with the already-loaded
configuration abstracted away: parse, fail if no entry matches, discover the
child database, query existing keys, then create the missing rows.  Returns
the outcome, the trace of issued remote operations and the final stored rows. -/
def mainModel (sourceMd : Str) (isoDate : Str) (w : World) :
    Except Str (Nat × Nat) × List NotionOp × List DbRecord :=
  let ddmm := ddmmyyyyFromISO isoDate
  let entries := parseWodPage sourceMd ddmm
  if entries.isEmpty then
    (Except.error (noEntriesMsg ddmm), [], w.records)
  else
    match getChildDatabaseIdM w.children with
    | Except.error e => (Except.error e, [NotionOp.listChildren], w.records)
    | Except.ok _ =>
      let out := syncLoop isoDate (queryExistingForDate isoDate w.records) entries
        (0, 0, w.records)
      (Except.ok (out.1, out.2.1),
       [NotionOp.listChildren, NotionOp.query] ++ List.replicate out.1 NotionOp.create,
       out.2.2)

/-- `l` starts with two LFs. -/
def startsTwoNl : Str → Bool
  | a :: b :: _ => a == '\n' && b == '\n'
  | _ => false

/-- `l` contains three consecutive LF characters. -/
def hasTriple : Str → Bool
  | [] => false
  | c :: r => ((c == '\n') && startsTwoNl r) || hasTriple r

/-- The line list starts with two empty lines. -/
def startsTwoEmptyLines : List Str → Bool
  | x :: y :: _ => x.isEmpty && y.isEmpty
  | _ => false

/-- The line list contains three consecutive empty lines. -/
def threeConsecEmptyLines : List Str → Bool
  | [] => false
  | x :: r => (x.isEmpty && startsTwoEmptyLines r) || threeConsecEmptyLines r

/-- A stored row for the lossy-query demonstration: location text of `n+1`
repeated characters, so distinct `n` give distinct dedup keys. -/
def c9row (n : Nat) : DbRecord :=
  { title := [], date := "2026-02-01".data, location := [List.replicate (n + 1) 'a'],
    typeName := "T".data, source := [], wod := [] }

/-! ### Generic list toolkit -/

theorem segNilEq {α : Type*} {p : List α} (h : p <:+: ([] : List α)) : p = [] := by
  obtain ⟨s, t, hst⟩ := h
  have h2 : s = [] ∧ p = [] ∧ t = [] := by simpa using hst
  exact h2.2.1

theorem segCons {α : Type*} {p : List α} {a : α} {l : List α} (h : p <:+: a :: l) :
    p <+: a :: l ∨ p <:+: l := by
  obtain ⟨s, t, hst⟩ := h
  cases s with
  | nil => exact Or.inl ⟨t, by simpa using hst⟩
  | cons b s' =>
    have hb : b = a ∧ s' ++ p ++ t = l := by
      constructor
      · exact (List.cons.injEq _ _ _ _ ▸ hst).1
      · exact (List.cons.injEq _ _ _ _ ▸ hst).2
    exact Or.inr ⟨s', t, hb.2⟩

theorem segExtLeft {α : Type*} {p : List α} (a : α) {l : List α} (h : p <:+: l) :
    p <:+: a :: l := by
  obtain ⟨s, t, hst⟩ := h
  exact ⟨a :: s, t, by simp [hst]⟩

theorem segAppLeft {α : Type*} {p : List α} (x : List α) {l : List α} (h : p <:+: l) :
    p <:+: x ++ l := by
  obtain ⟨s, t, hst⟩ := h
  exact ⟨x ++ s, t, by simp [← hst]⟩

theorem prefToSeg {α : Type*} {p l : List α} (h : p <+: l) : p <:+: l := by
  obtain ⟨t, ht⟩ := h
  exact ⟨[], t, by simpa using ht⟩

theorem sufToSeg {α : Type*} {p l : List α} (h : p <:+ l) : p <:+: l := by
  obtain ⟨s, hs⟩ := h
  exact ⟨s, [], by simpa using hs⟩

theorem preConsCases {α : Type*} {p : List α} {a : α} {l : List α} (h : p <+: a :: l) :
    p = [] ∨ ∃ q, p = a :: q ∧ q <+: l := by
  cases p with
  | nil => exact Or.inl rfl
  | cons c q =>
    obtain ⟨t, ht⟩ := h
    have hc : c = a ∧ q ++ t = l := by
      constructor
      · exact (List.cons.injEq _ _ _ _ ▸ ht).1
      · exact (List.cons.injEq _ _ _ _ ▸ ht).2
    exact Or.inr ⟨q, by rw [hc.1], ⟨t, hc.2⟩⟩

theorem preHeadEq {α : Type*} {p l : List α} (h : p <+: l) (hne : p ≠ []) :
    l.head? = p.head? := by
  obtain ⟨t, ht⟩ := h
  cases p with
  | nil => exact absurd rfl hne
  | cons c q => rw [← ht]; rfl

theorem memOfSeg {α : Type*} {p l : List α} {a : α} (h : p <:+: l) (ha : a ∈ p) : a ∈ l :=
  h.sublist.subset ha

theorem mapSeg {α β : Type*} (f : α → β) {p l : List α} (h : p <:+: l) :
    p.map f <:+: l.map f := by
  obtain ⟨s, t, hst⟩ := h
  exact ⟨s.map f, t.map f, by rw [← List.map_append, ← List.map_append, hst]⟩

theorem segMapInv {α β : Type*} {f : α → β} {P : List β} {l : List α}
    (h : P <:+: l.map f) : ∃ p, p <:+: l ∧ p.map f = P := by
  obtain ⟨s, t, hst⟩ := h
  refine ⟨(l.drop s.length).take P.length,
    ⟨l.take s.length, (l.drop s.length).drop P.length, by
      rw [List.append_assoc, List.take_append_drop, List.take_append_drop]⟩, ?_⟩
  rw [List.map_take, List.map_drop]
  have hdrop : (l.map f).drop s.length = P ++ t := by
    rw [← hst, List.append_assoc, List.drop_left]
  rw [hdrop, List.take_left]

theorem dwSuffix {α : Type*} (p : α → Bool) (l : List α) : l.dropWhile p <:+ l := by
  induction l with
  | nil => exact List.suffix_rfl
  | cons a l ih =>
    by_cases hp : p a
    · rw [List.dropWhile_cons_of_pos hp]
      exact ih.trans (List.suffix_cons a l)
    · rw [List.dropWhile_cons_of_neg hp]

theorem dwHeadNeg {α : Type*} {p : α → Bool} {l : List α} {c : α}
    (h : (l.dropWhile p).head? = some c) : p c = false := by
  induction l with
  | nil => simp at h
  | cons a l ih =>
    by_cases hp : p a
    · rw [List.dropWhile_cons_of_pos hp] at h; exact ih h
    · rw [List.dropWhile_cons_of_neg hp] at h
      simp only [List.head?_cons, Option.some.injEq] at h
      rw [← h]
      simpa using hp

theorem dwAppendCons {α : Type*} {p : α → Bool} {l : List α} {h0 : α} {t : List α}
    (h : l.dropWhile p = h0 :: t) (y : List α) :
    (l ++ y).dropWhile p = h0 :: (t ++ y) := by
  induction l with
  | nil => simp at h
  | cons a l ih =>
    by_cases hp : p a
    · rw [List.dropWhile_cons_of_pos hp] at h
      rw [List.cons_append, List.dropWhile_cons_of_pos hp]
      exact ih h
    · rw [List.dropWhile_cons_of_neg hp] at h
      rw [List.cons_append, List.dropWhile_cons_of_neg hp]
      rw [List.cons.injEq] at h
      simp [h.1, h.2]

theorem dwAppendAll {α : Type*} {p : α → Bool} {l : List α}
    (h : ∀ a ∈ l, p a = true) (y : List α) :
    (l ++ y).dropWhile p = y.dropWhile p := by
  induction l with
  | nil => simp
  | cons a l ih =>
    rw [List.cons_append, List.dropWhile_cons_of_pos (h a (by simp))]
    exact ih fun a ha => h a (by simp [ha])

theorem revDwRevPre {α : Type*} (p : α → Bool) (l : List α) :
    (l.reverse.dropWhile p).reverse <+: l := by
  obtain ⟨s, hs⟩ := dwSuffix p l.reverse
  refine ⟨s.reverse, ?_⟩
  rw [← List.reverse_append, hs, List.reverse_reverse]

/-- Wrapper for the Batteries boolean-to-propositional characterisation. -/
theorem isPreOfIff {l1 l2 : Str} : l1.isPrefixOf l2 = true ↔ l1 <+: l2 :=
  List.isPrefixOf_iff_prefix

/-! ### Lemmas about the line splitter -/

theorem splitLines_genCons {c : Char} {r : Str} (h1 : c ≠ '\n')
    (h2 : ∀ r', ¬(c = '\r' ∧ r = '\n' :: r')) :
    splitLinesJS (c :: r) = consHead c (splitLinesJS r) := by
  match r with
  | [] => simp [splitLinesJS, h1]
  | c2 :: r2 =>
    by_cases hcr : c = '\r'
    · have hc2 : c2 ≠ '\n' := by
        intro hh
        exact h2 r2 ⟨hcr, by rw [hh]⟩
      subst hcr
      cases c2
      simp_all [splitLinesJS]
    · simp [splitLinesJS, h1, hcr]

theorem splitLines_noNl : ∀ (t : Str), ∀ l ∈ splitLinesJS t, '\n' ∉ l := by
  intro t
  induction t using splitLinesJS.induct with
  | case1 =>
    intro l hl
    simp only [splitLinesJS, List.mem_singleton] at hl
    simp [hl]
  | case2 r ih =>
    intro l hl
    simp only [splitLinesJS, List.mem_cons] at hl
    rcases hl with rfl | hl
    · simp
    · exact ih l hl
  | case3 r ih =>
    intro l hl
    simp only [splitLinesJS, List.mem_cons] at hl
    rcases hl with rfl | hl
    · simp
    · exact ih l hl
  | case4 c r h1 h2 ih =>
    intro l hl
    have hc : c ≠ '\n' := fun h => h1 h
    have heq := splitLines_genCons hc (fun r' hand => h2 r' hand.1 hand.2)
    rw [heq] at hl
    match hsp : splitLinesJS r, hl with
    | [], hl =>
      simp only [consHead, List.mem_singleton] at hl
      subst hl
      simp only [List.mem_singleton]
      exact fun h => hc h.symm
    | h0 :: t0, hl =>
      simp only [consHead, List.mem_cons] at hl
      rcases hl with rfl | hl
      · intro hmem
        rcases List.mem_cons.mp hmem with h | h
        · exact hc h.symm
        · exact ih h0 (by rw [hsp]; exact List.mem_cons_self _ _) h
      · exact ih l (by rw [hsp]; exact List.mem_cons_of_mem _ hl)

theorem splitLines_headPre : ∀ (t : Str) (h : Str), (splitLinesJS t).head? = some h → h <+: t := by
  intro t
  induction t using splitLinesJS.induct with
  | case1 =>
    intro h hh
    simp only [splitLinesJS, List.head?_cons, Option.some.injEq] at hh
    simp [← hh]
  | case2 r ih =>
    intro h hh
    simp only [splitLinesJS, List.head?_cons, Option.some.injEq] at hh
    rw [← hh]
    exact List.nil_prefix
  | case3 r ih =>
    intro h hh
    simp only [splitLinesJS, List.head?_cons, Option.some.injEq] at hh
    rw [← hh]
    exact List.nil_prefix
  | case4 c r h1 h2 ih =>
    intro h hh
    have hc : c ≠ '\n' := fun h => h1 h
    have heq := splitLines_genCons hc (fun r' hand => h2 r' hand.1 hand.2)
    rw [heq] at hh
    match hsp : splitLinesJS r, hh with
    | [], hh =>
      simp only [hsp, consHead, List.head?_cons, Option.some.injEq] at hh
      rw [← hh]
      exact ⟨r, rfl⟩
    | h0 :: t0, hh =>
      simp only [hsp, consHead, List.head?_cons, Option.some.injEq] at hh
      rw [← hh]
      have hpre : h0 <+: r := ih h0 (by rw [hsp]; rfl)
      obtain ⟨t, ht⟩ := hpre
      exact ⟨t, by rw [List.cons_append, ht]⟩

theorem splitLines_seg : ∀ (t : Str), ∀ l ∈ splitLinesJS t, l <:+: t := by
  intro t
  induction t using splitLinesJS.induct with
  | case1 =>
    intro l hl
    simp only [splitLinesJS, List.mem_singleton] at hl
    simp [hl]
  | case2 r ih =>
    intro l hl
    simp only [splitLinesJS, List.mem_cons] at hl
    rcases hl with rfl | hl
    · exact ⟨[], '\n' :: r, rfl⟩
    · exact segExtLeft _ (ih l hl)
  | case3 r ih =>
    intro l hl
    simp only [splitLinesJS, List.mem_cons] at hl
    rcases hl with rfl | hl
    · exact ⟨[], '\r' :: '\n' :: r, rfl⟩
    · exact segExtLeft _ (segExtLeft _ (ih l hl))
  | case4 c r h1 h2 ih =>
    intro l hl
    have hc : c ≠ '\n' := fun h => h1 h
    have heq := splitLines_genCons hc (fun r' hand => h2 r' hand.1 hand.2)
    rw [heq] at hl
    match hsp : splitLinesJS r, hl with
    | [], hl =>
      simp only [consHead, List.mem_singleton] at hl
      subst hl
      exact prefToSeg ⟨r, rfl⟩
    | h0 :: t0, hl =>
      simp only [consHead, List.mem_cons] at hl
      rcases hl with rfl | hl
      · have hpre : h0 <+: r := splitLines_headPre r h0 (by rw [hsp]; rfl)
        obtain ⟨t, ht⟩ := hpre
        exact prefToSeg ⟨t, by rw [List.cons_append, ht]⟩
      · exact segExtLeft _ (ih l (by rw [hsp]; exact List.mem_cons_of_mem _ hl))

/-! ### Lemmas about trimming -/

theorem trimRight_pre (l : Str) : trimRightJS l <+: l := revDwRevPre isWs l

theorem trimLeft_suf (l : Str) : trimLeftJS l <:+ l := dwSuffix isWs l

theorem trimJS_seg (l : Str) : trimJS l <:+: l :=
  (prefToSeg (trimRight_pre (trimLeftJS l))).trans (sufToSeg (trimLeft_suf l))

theorem trimJS_head_notWs {l : Str} {c : Char} (h : (trimJS l).head? = some c) :
    isWs c = false := by
  have hp : trimJS l <+: trimLeftJS l := trimRight_pre (trimLeftJS l)
  have hne : trimJS l ≠ [] := by
    intro hnil
    rw [hnil] at h
    simp at h
  have h2 := preHeadEq hp hne
  rw [h] at h2
  exact dwHeadNeg (show (List.dropWhile isWs l).head? = some c from h2)

theorem trimJS_getLast_notWs {l : Str} {c : Char} (h : (trimJS l).getLast? = some c) :
    isWs c = false := by
  have hrw : (trimJS l).getLast? = ((trimLeftJS l).reverse.dropWhile isWs).head? := by
    show (trimRightJS (trimLeftJS l)).getLast? = _
    unfold trimRightJS
    rw [← List.head?_reverse, List.reverse_reverse]
  rw [hrw] at h
  exact dwHeadNeg h

/-! ### Lemmas about the LF-run collapse -/

theorem twMemPred {α : Type*} {p : α → Bool} : ∀ {l : List α} {a : α},
    a ∈ l.takeWhile p → p a = true := by
  intro l
  induction l with
  | nil => intro a ha; simp at ha
  | cons c r ih =>
    intro a ha
    by_cases hp : p c
    · rw [List.takeWhile_cons_of_pos hp] at ha
      rcases List.mem_cons.mp ha with rfl | ha
      · exact hp
      · exact ih ha
    · rw [List.takeWhile_cons_of_neg hp] at ha
      simp at ha

theorem dwLenLe {α : Type*} (p : α → Bool) (l : List α) :
    (l.dropWhile p).length ≤ l.length :=
  (dwSuffix p l).sublist.length_le

theorem collapseNlF_fuelEq : ∀ (f g : Nat) (l : Str), l.length ≤ f → l.length ≤ g →
    collapseNlF f l = collapseNlF g l := by
  intro f
  induction f with
  | zero =>
    intro g l hf _
    have : l = [] := List.length_eq_zero.mp (Nat.le_zero.mp hf)
    subst this
    cases g <;> rfl
  | succ f ih =>
    intro g l hf hg
    cases l with
    | nil => cases g <;> rfl
    | cons c r =>
      cases g with
      | zero => simp at hg
      | succ g =>
        simp only [collapseNlF]
        by_cases hc : c = '\n'
        · rw [if_pos hc, if_pos hc]
          congr 1
          exact ih g (r.dropWhile (· == '\n'))
            (Nat.le_trans (dwLenLe _ _) (Nat.succ_le_succ_iff.mp hf))
            (Nat.le_trans (dwLenLe _ _) (Nat.succ_le_succ_iff.mp hg))
        · rw [if_neg hc, if_neg hc]
          congr 1
          exact ih g r (Nat.succ_le_succ_iff.mp hf) (Nat.succ_le_succ_iff.mp hg)

theorem collapseNl_nil : collapseNl [] = [] := rfl

theorem collapseNl_consNe {c : Char} {r : Str} (h : c ≠ '\n') :
    collapseNl (c :: r) = c :: collapseNl r := by
  show collapseNlF (r.length + 1) (c :: r) = _
  simp only [collapseNlF, if_neg h]
  rfl

theorem collapseNl_consNl (r : Str) : collapseNl ('\n' :: r) =
    (if (r.takeWhile (· == '\n')).length + 1 ≥ 3 then ['\n', '\n']
     else '\n' :: r.takeWhile (· == '\n')) ++ collapseNl (r.dropWhile (· == '\n')) := by
  show collapseNlF (r.length + 1) ('\n' :: r) = _
  simp only [collapseNlF, if_true]
  congr 1
  exact collapseNlF_fuelEq r.length (r.dropWhile (· == '\n')).length _
    (dwLenLe _ _) Nat.le.refl

theorem hasTriple_consEq (c : Char) (r : Str) :
    hasTriple (c :: r) = (((c == '\n') && startsTwoNl r) || hasTriple r) := rfl

theorem startsTwoNl_iff {r : Str} : startsTwoNl r = true ↔ ∃ r', r = '\n' :: '\n' :: r' := by
  match r with
  | [] => simp [startsTwoNl]
  | [a] => simp [startsTwoNl]
  | a :: b :: r' =>
    simp only [startsTwoNl, Bool.and_eq_true, beq_iff_eq]
    constructor
    · rintro ⟨rfl, rfl⟩; exact ⟨r', rfl⟩
    · rintro ⟨r2, heq⟩
      rw [List.cons.injEq] at heq
      obtain ⟨h1, heq⟩ := heq
      rw [List.cons.injEq] at heq
      exact ⟨h1, heq.1⟩

theorem hasTriple_short : ∀ {l : Str}, l.length ≤ 2 → hasTriple l = false := by
  intro l h
  match l with
  | [] => rfl
  | [a] => simp [hasTriple, startsTwoNl]
  | [a, b] => simp [hasTriple, startsTwoNl]
  | a :: b :: c :: r => simp only [List.length_cons] at h; omega

theorem hasTriple_append {xs ys : Str} (hx : hasTriple xs = false) (hy : hasTriple ys = false)
    (hhead : ys = [] ∨ ∃ c t, ys = c :: t ∧ c ≠ '\n') : hasTriple (xs ++ ys) = false := by
  induction xs with
  | nil => simpa using hy
  | cons a xs' ih =>
    rw [hasTriple_consEq] at hx
    rw [List.cons_append, hasTriple_consEq]
    simp only [Bool.or_eq_false_iff] at hx ⊢
    refine ⟨?_, ih hx.2⟩
    by_cases ha : a = '\n'
    · subst ha
      simp only [beq_self_eq_true, Bool.true_and] at hx ⊢
      by_contra hst
      rw [Bool.not_eq_false] at hst
      obtain ⟨r', hr'⟩ := startsTwoNl_iff.mp hst
      match xs', hx, hr' with
      | [], hx, hr' =>
        simp only [List.nil_append] at hr'
        rcases hhead with h0 | ⟨c, t, hct, hc⟩
        · rw [h0] at hr'; exact absurd hr' (by simp)
        · rw [hct] at hr'
          injection hr' with h1 _
          exact hc h1
      | [x1], hx, hr' =>
        simp only [List.cons_append, List.nil_append] at hr'
        injection hr' with h1 h2
        rcases hhead with h0 | ⟨c, t, hct, hc⟩
        · rw [h0] at h2; exact absurd h2 (by simp)
        · rw [hct] at h2
          injection h2 with h3 _
          exact hc h3
      | x1 :: x2 :: xs'', hx, hr' =>
        simp only [List.cons_append] at hr'
        injection hr' with h1 h2
        injection h2 with h3 _
        have h5 : startsTwoNl (x1 :: x2 :: xs'') = true := by
          simp [startsTwoNl, h1, h3]
        rw [h5] at hx
        exact absurd hx.1 (by simp)
    · simp [ha]

theorem hasTriple_collapse_bounded : ∀ (n : Nat) (l : Str), l.length ≤ n →
    hasTriple (collapseNl l) = false := by
  intro n
  induction n with
  | zero =>
    intro l h
    have : l = [] := List.length_eq_zero.mp (Nat.le_zero.mp h)
    subst this
    rfl
  | succ n ih =>
    intro l h
    cases l with
    | nil => rfl
    | cons c r =>
      by_cases hc : c = '\n'
      · subst hc
        rw [collapseNl_consNl]
        have hrest : (r.dropWhile (· == '\n')).length ≤ n :=
          Nat.le_trans (dwLenLe _ _) (Nat.succ_le_succ_iff.mp h)
        refine hasTriple_append ?_ (ih _ hrest) ?_
        · by_cases hrun : (r.takeWhile (· == '\n')).length + 1 ≥ 3
          · rw [if_pos hrun]; rfl
          · rw [if_neg hrun]
            exact hasTriple_short (by simp; omega)
        · cases hd : r.dropWhile (· == '\n') with
          | nil => left; rw [collapseNl_nil]
          | cons c2 r2 =>
            have hc2 : (c2 == '\n') = false := by
              have hh : (List.dropWhile (fun x => x == '\n') r).head? = some c2 := by
                rw [hd]
                rfl
              exact @dwHeadNeg Char (fun x => x == '\n') r c2 hh
            have hc2' : c2 ≠ '\n' := by simpa using hc2
            right
            exact ⟨c2, collapseNl r2, by rw [collapseNl_consNe hc2'], hc2'⟩
      · rw [collapseNl_consNe hc]
        rw [hasTriple_consEq]
        simp only [Bool.or_eq_false_iff]
        constructor
        · simp [hc]
        · exact ih r (Nat.succ_le_succ_iff.mp h)

theorem hasTriple_collapse (l : Str) : hasTriple (collapseNl l) = false :=
  hasTriple_collapse_bounded l.length l Nat.le.refl

theorem segAppAllNl : ∀ {b : Str} {p Z : Str}, '\n' ∉ p → (∀ c ∈ b, c = '\n') →
    p <:+: b ++ Z → p <:+: Z := by
  intro b
  induction b with
  | nil =>
    intro p Z _ _ h
    simpa using h
  | cons c b' ih =>
    intro p Z hp hb h
    rw [List.cons_append] at h
    rcases segCons h with hpre | hseg
    · rcases preConsCases hpre with rfl | ⟨q, rfl, _⟩
      · exact List.nil_infix
      · exact absurd (hb c (by simp) ▸ List.mem_cons_self c q) hp
    · exact ih hp (fun x hx => hb x (by simp [hx])) hseg

theorem noNl_pre_collapse : ∀ (n : Nat) (l : Str), l.length ≤ n → ∀ p : Str, '\n' ∉ p →
    p <+: collapseNl l → p <+: l := by
  intro n
  induction n with
  | zero =>
    intro l hl p _ hpre
    have : l = [] := List.length_eq_zero.mp (Nat.le_zero.mp hl)
    subst this
    exact hpre
  | succ n ih =>
    intro l hl p hp hpre
    cases l with
    | nil => exact hpre
    | cons c r =>
      by_cases hc : c = '\n'
      · subst hc
        rw [collapseNl_consNl] at hpre
        cases p with
        | nil => exact List.nil_prefix
        | cons a q =>
          obtain ⟨t, ht⟩ := hpre
          have hblock : ∃ bs, (if (r.takeWhile (· == '\n')).length + 1 ≥ 3 then ['\n', '\n']
              else '\n' :: r.takeWhile (· == '\n')) = '\n' :: bs := by
            split
            · exact ⟨['\n'], rfl⟩
            · exact ⟨r.takeWhile (· == '\n'), rfl⟩
          obtain ⟨bs, hbs⟩ := hblock
          rw [hbs] at ht
          rw [List.cons_append, List.cons_append] at ht
          injection ht with h1 _
          exact absurd (h1 ▸ List.mem_cons_self a q) hp
      · rw [collapseNl_consNe hc] at hpre
        rcases preConsCases hpre with rfl | ⟨q, rfl, hq⟩
        · exact List.nil_prefix
        · have hq2 : q <+: r := ih r (Nat.succ_le_succ_iff.mp hl) q
            (fun hmem => hp (List.mem_cons_of_mem _ hmem)) hq
          obtain ⟨t, ht⟩ := hq2
          exact ⟨t, by rw [List.cons_append, ht]⟩

theorem noNl_seg_collapse : ∀ (n : Nat) (l : Str), l.length ≤ n → ∀ p : Str, '\n' ∉ p →
    p <:+: collapseNl l → p <:+: l := by
  intro n
  induction n with
  | zero =>
    intro l hl p _ hseg
    have : l = [] := List.length_eq_zero.mp (Nat.le_zero.mp hl)
    subst this
    exact hseg
  | succ n ih =>
    intro l hl p hp hseg
    cases l with
    | nil => exact hseg
    | cons c r =>
      by_cases hc : c = '\n'
      · subst hc
        rw [collapseNl_consNl] at hseg
        have hball : ∀ x ∈ (if (r.takeWhile (· == '\n')).length + 1 ≥ 3 then ['\n', '\n']
            else '\n' :: r.takeWhile (· == '\n')), x = '\n' := by
          intro x hx
          split at hx
          · rcases List.mem_cons.mp hx with rfl | h2
            · rfl
            · rcases List.mem_cons.mp h2 with rfl | h3
              · rfl
              · simp at h3
          · rcases List.mem_cons.mp hx with rfl | h2
            · rfl
            · have := twMemPred h2
              simpa using this
        have hseg2 : p <:+: collapseNl (r.dropWhile (· == '\n')) :=
          segAppAllNl hp hball hseg
        have hlen : (r.dropWhile (· == '\n')).length ≤ n :=
          Nat.le_trans (dwLenLe _ _) (Nat.succ_le_succ_iff.mp hl)
        have hseg3 : p <:+: r.dropWhile (· == '\n') := ih _ hlen p hp hseg2
        exact segExtLeft _ (hseg3.trans (sufToSeg (dwSuffix _ r)))
      · rw [collapseNl_consNe hc] at hseg
        rcases segCons hseg with hpre | hseg2
        · rcases preConsCases hpre with rfl | ⟨q, rfl, hq⟩
          · exact List.nil_infix
          · have hq2 : q <+: r := noNl_pre_collapse r.length r Nat.le.refl q
              (fun hmem => hp (List.mem_cons_of_mem _ hmem)) hq
            obtain ⟨t, ht⟩ := hq2
            exact prefToSeg ⟨t, by rw [List.cons_append, ht]⟩
        · exact segExtLeft _ (ih r (Nat.succ_le_succ_iff.mp hl) p hp hseg2)

theorem noNl_seg_collapseNl {l p : Str} (hp : '\n' ∉ p) (h : p <:+: collapseNl l) :
    p <:+: l :=
  noNl_seg_collapse l.length l Nat.le.refl p hp h

theorem twReplicate {b : Char} (hb : b ≠ '\n') : ∀ (k : Nat),
    (List.replicate k '\n' ++ [b]).takeWhile (· == '\n') = List.replicate k '\n' ∧
    (List.replicate k '\n' ++ [b]).dropWhile (· == '\n') = [b] := by
  intro k
  induction k with
  | zero => simp [hb]
  | succ k ih =>
    rw [List.replicate_succ, List.cons_append]
    constructor
    · rw [List.takeWhile_cons_of_pos (by simp), ih.1]
    · rw [List.dropWhile_cons_of_pos (by simp), ih.2]

theorem collapseRun {a b : Char} {k : Nat} (ha : a ≠ '\n') (hb : b ≠ '\n') (hk : 3 ≤ k) :
    collapseNl (a :: (List.replicate k '\n' ++ [b])) = a :: '\n' :: '\n' :: [b] := by
  rw [collapseNl_consNe ha]
  match k, hk with
  | k' + 1, hk =>
    rw [List.replicate_succ, List.cons_append, collapseNl_consNl,
      (twReplicate hb k').1, (twReplicate hb k').2]
    rw [if_pos (by simp; omega)]
    rw [collapseNl_consNe hb, collapseNl_nil]
    rfl

/-! ### Lemmas about the boilerplate matchers -/

theorem toUpper_of_ws {c : Char} (h : isWs c = true) : c.toUpper = c := by
  have hmem : c ∈ wsChars := by
    rw [isWs] at h
    simpa using h
  simp only [wsChars, List.mem_cons, List.not_mem_nil, or_false] at hmem
  rcases hmem with rfl | rfl | rfl | rfl | rfl | rfl | rfl | rfl | rfl | rfl | rfl | rfl |
    rfl | rfl | rfl | rfl | rfl | rfl | rfl | rfl | rfl | rfl | rfl | rfl | rfl <;> decide

theorem stripCI_append : ∀ {pat q r : Str}, stripPrefixCI pat q = some r →
    ∀ v, stripPrefixCI pat (q ++ v) = some (r ++ v) := by
  intro pat q
  induction pat, q using stripPrefixCI.induct with
  | case1 l =>
    intro r h v
    simp only [stripPrefixCI, Option.some.injEq] at h
    subst h
    rfl
  | case2 p ps =>
    intro r h v
    simp [stripPrefixCI] at h
  | case3 p ps c cs hup ih =>
    intro r h v
    rw [stripPrefixCI, if_pos hup] at h
    rw [List.cons_append, stripPrefixCI, if_pos hup]
    exact ih h v
  | case4 p ps c cs hup =>
    intro r h v
    rw [stripPrefixCI, if_neg hup] at h
    simp at h

theorem stripCI_decomp : ∀ {pat s r : Str}, stripPrefixCI pat s = some r →
    ∃ q, s = q ++ r ∧ stripPrefixCI pat q = some [] := by
  intro pat s
  induction pat, s using stripPrefixCI.induct with
  | case1 l =>
    intro r h
    simp only [stripPrefixCI, Option.some.injEq] at h
    exact ⟨[], by simp [h], rfl⟩
  | case2 p ps =>
    intro r h
    simp [stripPrefixCI] at h
  | case3 p ps c cs hup ih =>
    intro r h
    rw [stripPrefixCI, if_pos hup] at h
    obtain ⟨q, hq1, hq2⟩ := ih h
    refine ⟨c :: q, by rw [List.cons_append, ← hq1], ?_⟩
    rw [stripPrefixCI, if_pos hup]
    exact hq2
  | case4 p ps c cs hup =>
    intro r h
    rw [stripPrefixCI, if_neg hup] at h
    simp at h

theorem stripCI_headUp {p : Char} {ps q x : Str} (h : stripPrefixCI (p :: ps) q = some x) :
    ∃ c q', q = c :: q' ∧ c.toUpper = p.toUpper := by
  cases q with
  | nil => simp [stripPrefixCI] at h
  | cons c q' =>
    by_cases hup : c.toUpper = p.toUpper
    · exact ⟨c, q', rfl, hup⟩
    · rw [stripPrefixCI, if_neg hup] at h
      simp at h

theorem stripCI_ne_nil {p : Char} {ps q x : Str} (h : stripPrefixCI (p :: ps) q = some x) :
    q ≠ [] := by
  obtain ⟨c, q', rfl, _⟩ := stripCI_headUp h
  simp

theorem dropWs1_inv {q r : Str} (h : dropWs1 q = some r) :
    ∃ c q2, q = c :: q2 ∧ isWs c = true ∧ r = q2.dropWhile isWs := by
  cases q with
  | nil => simp [dropWs1] at h
  | cons c q2 =>
    by_cases hws : isWs c
    · rw [dropWs1, if_pos hws, Option.some.injEq] at h
      exact ⟨c, q2, rfl, hws, h.symm⟩
    · rw [dropWs1, if_neg hws] at h
      simp at h

theorem dropWs1_appendCons {q : Str} {h0 : Char} {t : Str}
    (h : dropWs1 q = some (h0 :: t)) (v : Str) : dropWs1 (q ++ v) = some (h0 :: (t ++ v)) := by
  obtain ⟨c, q2, rfl, hws, hr⟩ := dropWs1_inv h
  rw [List.cons_append, dropWs1, if_pos hws]
  rw [Option.some.injEq]
  exact dwAppendCons hr.symm v

theorem dropWs1_appendNil {q : Str} (h : dropWs1 q = some []) {d : Char} (hd : isWs d = false)
    (v : Str) : dropWs1 (q ++ d :: v) = some (d :: v) := by
  obtain ⟨c, q2, rfl, hws, hr⟩ := dropWs1_inv h
  rw [List.cons_append, dropWs1, if_pos hws]
  rw [Option.some.injEq]
  have hall : ∀ a ∈ q2, isWs a = true := List.dropWhile_eq_nil_iff.mp hr.symm
  rw [dwAppendAll hall]
  rw [List.dropWhile_cons_of_neg (by rw [hd]; simp)]

theorem dropWs1_decomp {s r : Str} (h : dropWs1 s = some r) :
    ∃ q, s = q ++ r ∧ dropWs1 q = some [] := by
  obtain ⟨c, q2, rfl, hws, hr⟩ := dropWs1_inv h
  refine ⟨c :: q2.takeWhile isWs, ?_, ?_⟩
  · rw [List.cons_append, hr]
    rw [List.takeWhile_append_dropWhile]
  · rw [dropWs1, if_pos hws, Option.some.injEq]
    rw [List.dropWhile_eq_nil_iff]
    intro a ha
    exact twMemPred ha

theorem match5_some {r x : Str} (h : match5 r = some x) : r = '5' :: x := by
  cases r with
  | nil => simp [match5] at h
  | cons c r' =>
    by_cases hc : c = '5'
    · rw [match5, if_pos hc] at h
      rw [Option.some.injEq] at h
      rw [hc, h]
    · rw [match5, if_neg hc] at h
      simp at h

theorem match5_five (x : Str) : match5 ('5' :: x) = some x := by
  rw [match5, if_pos rfl]

theorem m5_append {p : Str} (h : m5Munch p = some []) (v : Str) :
    m5Munch (p ++ v) = some v := by
  unfold m5Munch at h ⊢
  cases h1 : stripPrefixCI "MORE THAN".data p with
  | none => rw [h1, Option.none_bind] at h; simp at h
  | some r1 =>
    rw [h1, Option.some_bind] at h
    rw [stripCI_append h1 v, Option.some_bind]
    cases h2 : dropWs1 r1 with
    | none => rw [h2, Option.none_bind] at h; simp at h
    | some r2 =>
      rw [h2, Option.some_bind] at h
      cases h3 : match5 r2 with
      | none => rw [h3, Option.none_bind] at h; simp at h
      | some r3 =>
        rw [h3, Option.some_bind] at h
        have hr2 : r2 = '5' :: r3 := match5_some h3
        subst hr2
        rw [dropWs1_appendCons h2 v, Option.some_bind]
        rw [match5_five, Option.some_bind]
        cases h4 : dropWs1 r3 with
        | none => rw [h4, Option.none_bind] at h; simp at h
        | some r4 =>
          rw [h4, Option.some_bind] at h
          obtain ⟨c4, q4, hr4, _⟩ := stripCI_headUp (by
            rw [show ("MIN".data : Str) = 'M' :: "IN".data from rfl] at h
            exact h)
          subst hr4
          rw [dropWs1_appendCons h4 v, Option.some_bind]
          have h5 := stripCI_append h v
          rw [List.cons_append] at h5
          simpa using h5

theorem m5_decomp {s r : Str} (h : m5Munch s = some r) :
    ∃ p, s = p ++ r ∧ m5Munch p = some [] := by
  unfold m5Munch at h
  cases h1 : stripPrefixCI "MORE THAN".data s with
  | none => rw [h1, Option.none_bind] at h; simp at h
  | some r1 =>
    rw [h1, Option.some_bind] at h
    cases h2 : dropWs1 r1 with
    | none => rw [h2, Option.none_bind] at h; simp at h
    | some r2 =>
      rw [h2, Option.some_bind] at h
      cases h3 : match5 r2 with
      | none => rw [h3, Option.none_bind] at h; simp at h
      | some r3 =>
        rw [h3, Option.some_bind] at h
        have hr2 : r2 = '5' :: r3 := match5_some h3
        subst hr2
        cases h4 : dropWs1 r3 with
        | none => rw [h4, Option.none_bind] at h; simp at h
        | some r4 =>
          rw [h4, Option.some_bind] at h
          obtain ⟨q1, hs1, hq1⟩ := stripCI_decomp h1
          obtain ⟨q2, hr1, hq2⟩ := dropWs1_decomp h2
          obtain ⟨q4, hr3, hq4⟩ := dropWs1_decomp h4
          obtain ⟨q5, hr4, hq5⟩ := stripCI_decomp h
          obtain ⟨c5, q5', hq5', hup5⟩ := stripCI_headUp (by
            rw [show ("MIN".data : Str) = 'M' :: "IN".data from rfl] at hq5
            exact hq5)
          have hc5ws : isWs c5 = false := by
            by_contra hws
            rw [Bool.not_eq_false] at hws
            have hup : c5.toUpper = c5 := toUpper_of_ws hws
            rw [hup] at hup5
            rw [hup5] at hws
            exact absurd hws (by decide)
          refine ⟨q1 ++ (q2 ++ ('5' :: (q4 ++ q5))), ?_, ?_⟩
          · rw [hs1, hr1, hr3, hr4]
            simp [List.append_assoc]
          · unfold m5Munch
            have ha1 := stripCI_append hq1 (q2 ++ ('5' :: (q4 ++ q5)))
            rw [List.nil_append] at ha1
            rw [ha1, Option.some_bind]
            have ha2 := dropWs1_appendNil hq2 (show isWs '5' = false by decide) (q4 ++ q5)
            rw [ha2, Option.some_bind]
            rw [match5_five, Option.some_bind]
            have ha4 : dropWs1 (q4 ++ q5) = some q5 := by
              rw [hq5']
              exact dropWs1_appendNil hq4 hc5ws q5'
            rw [ha4, Option.some_bind]
            exact hq5

theorem m5_ne_nil {p x : Str} (h : m5Munch p = some x) : p ≠ [] := by
  unfold m5Munch at h
  cases h1 : stripPrefixCI "MORE THAN".data p with
  | none => rw [h1, Option.none_bind] at h; simp at h
  | some r1 =>
    exact stripCI_ne_nil (by
      rw [show ("MORE THAN".data : Str) = 'M' :: "ORE THAN".data from rfl] at h1
      exact h1)

theorem testM5_iff {l : Str} : testM5 l = true ↔ ∃ p, p <:+: l ∧ m5Munch p = some [] := by
  unfold testM5
  rw [List.any_eq_true]
  constructor
  · rintro ⟨s, hs, hsome⟩
    rw [List.mem_tails] at hs
    rw [Option.isSome_iff_exists] at hsome
    obtain ⟨r, hr⟩ := hsome
    obtain ⟨p, hsplit, hp⟩ := m5_decomp hr
    refine ⟨p, ?_, hp⟩
    obtain ⟨u, hu⟩ := hs
    exact ⟨u, r, by rw [List.append_assoc, ← hsplit, hu]⟩
  · rintro ⟨p, ⟨u, t, hl⟩, hp⟩
    refine ⟨p ++ t, ?_, ?_⟩
    · rw [List.mem_tails]
      exact ⟨u, by rw [← List.append_assoc, hl]⟩
    · rw [m5_append hp t]
      rfl

theorem testNoRes_iff {l : Str} : testNoRes l = true ↔
    ∃ p, p <:+: l ∧ p.map Char.toUpper = noResPhrase := by
  unfold testNoRes upperChars
  rw [List.any_eq_true]
  constructor
  · rintro ⟨s, hs, hpre⟩
    rw [List.mem_tails] at hs
    rw [isPreOfIff] at hpre
    exact segMapInv ((prefToSeg hpre).trans (sufToSeg hs))
  · rintro ⟨p, hp, hmap⟩
    have h2 : noResPhrase <:+: l.map Char.toUpper := by
      rw [← hmap]
      exact mapSeg Char.toUpper hp
    obtain ⟨u, t, hut⟩ := h2
    refine ⟨noResPhrase ++ t, ?_, ?_⟩
    · rw [List.mem_tails]
      exact ⟨u, by rw [← List.append_assoc, hut]⟩
    · rw [isPreOfIff]
      exact ⟨t, rfl⟩

theorem noRes_noNl {p : Str} (h : p.map Char.toUpper = noResPhrase) : '\n' ∉ p ∧ p ≠ [] := by
  constructor
  · intro hmem
    have : '\n' ∈ noResPhrase := by
      rw [← h]
      exact List.mem_map.mpr ⟨'\n', hmem, by decide⟩
    exact absurd this (by decide)
  · intro hnil
    rw [hnil] at h
    exact absurd h.symm (by decide)

/-! ### Per-line properties of the cleaned text -/

theorem preNlSplit : ∀ {x : Str} {p y : Str}, '\n' ∉ p → p <+: x ++ '\n' :: y → p <+: x := by
  intro x
  induction x with
  | nil =>
    intro p y hp h
    rcases preConsCases (by simpa using h) with rfl | ⟨q, rfl, _⟩
    · exact List.nil_prefix
    · exact absurd (List.mem_cons_self _ _) hp
  | cons c x' ih =>
    intro p y hp h
    rw [List.cons_append] at h
    rcases preConsCases h with rfl | ⟨q, rfl, hq⟩
    · exact List.nil_prefix
    · obtain ⟨t, ht⟩ := ih (fun hm => hp (List.mem_cons_of_mem _ hm)) hq
      exact ⟨t, by rw [List.cons_append, ht]⟩

theorem segNlSplit : ∀ {x : Str} {p y : Str}, '\n' ∉ p → '\n' ∉ x →
    p <:+: x ++ '\n' :: y → p <:+: x ∨ p <:+: y := by
  intro x
  induction x with
  | nil =>
    intro p y hp _ h
    rcases segCons (by simpa using h) with hpre | hseg
    · rcases preConsCases hpre with rfl | ⟨q, rfl, _⟩
      · exact Or.inl List.nil_infix
      · exact absurd (List.mem_cons_self _ _) hp
    · exact Or.inr hseg
  | cons c x' ih =>
    intro p y hp hx h
    rw [List.cons_append] at h
    rcases segCons h with hpre | hseg
    · rcases preConsCases hpre with rfl | ⟨q, rfl, hq⟩
      · exact Or.inl List.nil_infix
      · obtain ⟨t, ht⟩ := preNlSplit (fun hm => hp (List.mem_cons_of_mem _ hm)) hq
        exact Or.inl (prefToSeg ⟨t, by rw [List.cons_append, ht]⟩)
    · rcases ih (fun hm => hp hm) (fun hm => hx (List.mem_cons_of_mem _ hm)) hseg with h1 | h2
      · exact Or.inl (segExtLeft _ h1)
      · exact Or.inr h2

theorem segJoinNl : ∀ {L : List Str}, (∀ l ∈ L, '\n' ∉ l) → ∀ {p : Str}, '\n' ∉ p →
    p ≠ [] → p <:+: joinNl L → ∃ l ∈ L, p <:+: l := by
  intro L
  induction L using joinNl.induct with
  | case1 =>
    intro _ p _ hne h
    exact absurd (segNilEq h) hne
  | case2 l =>
    intro _ p _ _ h
    exact ⟨l, by simp, h⟩
  | case3 l l2 ls ih =>
    intro hL p hp hne h
    have hjoin : joinNl (l :: l2 :: ls) = l ++ '\n' :: joinNl (l2 :: ls) := rfl
    rw [hjoin] at h
    rcases segNlSplit hp (hL l (by simp)) h with h1 | h2
    · exact ⟨l, by simp, h1⟩
    · obtain ⟨l', hl', hseg⟩ := ih (fun x hx => hL x (List.mem_cons_of_mem _ hx)) hp hne h2
      exact ⟨l', List.mem_cons_of_mem _ hl', hseg⟩

theorem goodJoin {L : List Str} (hL1 : ∀ l ∈ L, '\n' ∉ l)
    (hL2 : ∀ l ∈ L, testNoRes l = false ∧ testM5 l = false) :
    ∀ p : Str, p ≠ [] → '\n' ∉ p → p <:+: joinNl L →
      ¬(p.map Char.toUpper = noResPhrase ∨ m5Munch p = some []) := by
  intro p hne hp h hbad
  obtain ⟨l, hl, hseg⟩ := segJoinNl hL1 hp hne h
  rcases hbad with hb1 | hb2
  · have h2 : testNoRes l = true := testNoRes_iff.mpr ⟨p, hseg, hb1⟩
    rw [(hL2 l hl).1] at h2
    exact absurd h2 (by simp)
  · have h2 : testM5 l = true := testM5_iff.mpr ⟨p, hseg, hb2⟩
    rw [(hL2 l hl).2] at h2
    exact absurd h2 (by simp)

theorem cleanLines_ok (t : Str) : ∀ l ∈ splitLinesJS (stripAnnoyingLines t),
    testNoRes l = false ∧ testM5 l = false := by
  intro l hl
  have hL1 : ∀ l' ∈ ((splitLinesJS t).filter fun line => !testNoRes line).filter
      (fun line => !testM5 line), '\n' ∉ l' := by
    intro l' hl'
    exact splitLines_noNl t l' (List.mem_filter.mp (List.mem_filter.mp hl').1).1
  have hL2 : ∀ l' ∈ ((splitLinesJS t).filter fun line => !testNoRes line).filter
      (fun line => !testM5 line), testNoRes l' = false ∧ testM5 l' = false := by
    intro l' hl'
    have h2 := List.mem_filter.mp hl'
    have h3 := List.mem_filter.mp h2.1
    constructor
    · simpa using h3.2
    · simpa using h2.2
  have hlseg : l <:+: stripAnnoyingLines t := splitLines_seg _ l hl
  have hlnoNl : '\n' ∉ l := splitLines_noNl _ l hl
  by_contra hcon
  rw [not_and_or] at hcon
  have hbad : ∃ p, p <:+: l ∧ (p.map Char.toUpper = noResPhrase ∨ m5Munch p = some []) := by
    rcases hcon with hc | hc
    · rw [Bool.not_eq_false] at hc
      obtain ⟨p, hp, hm⟩ := testNoRes_iff.mp hc
      exact ⟨p, hp, Or.inl hm⟩
    · rw [Bool.not_eq_false] at hc
      obtain ⟨p, hp, hm⟩ := testM5_iff.mp hc
      exact ⟨p, hp, Or.inr hm⟩
  obtain ⟨p, hpl, hbad2⟩ := hbad
  have hpN : '\n' ∉ p := fun hm => hlnoNl (memOfSeg hpl hm)
  have hpne : p ≠ [] := by
    rcases hbad2 with h1 | h2
    · exact (noRes_noNl h1).2
    · exact m5_ne_nil h2
  have hseg2 : p <:+: collapseNl (joinNl (((splitLinesJS t).filter
      fun line => !testNoRes line).filter fun line => !testM5 line)) :=
    (hpl.trans hlseg).trans (trimJS_seg _)
  have hseg3 := noNl_seg_collapseNl hpN hseg2
  exact goodJoin hL1 hL2 p hpne hpN hseg3 hbad2

theorem hasTriple_seg_iff : ∀ {l : Str}, hasTriple l = true ↔
    ('\n' :: '\n' :: '\n' :: []) <:+: l := by
  intro l
  induction l with
  | nil =>
    constructor
    · intro h; simp [hasTriple] at h
    · intro h; exact absurd (segNilEq h) (by simp)
  | cons c r ih =>
    rw [hasTriple_consEq]
    constructor
    · intro h
      rcases Bool.or_eq_true_iff.mp h with h1 | h2
      · rw [Bool.and_eq_true, beq_iff_eq] at h1
        obtain ⟨rfl, hst⟩ := h1
        obtain ⟨r', rfl⟩ := startsTwoNl_iff.mp hst
        exact prefToSeg ⟨r', rfl⟩
      · exact segExtLeft _ (ih.mp h2)
    · intro h
      rcases segCons h with hpre | hseg
      · rcases preConsCases hpre with habs | ⟨q, heq, hq⟩
        · simp at habs
        · injection heq with hc hqeq
          obtain ⟨t, ht⟩ := hq
          rw [← hqeq] at ht
          rw [Bool.or_eq_true_iff]
          left
          rw [Bool.and_eq_true, beq_iff_eq]
          refine ⟨hc.symm, startsTwoNl_iff.mpr ⟨t, ?_⟩⟩
          rw [← ht]
          rfl
      · rw [Bool.or_eq_true_iff]
        exact Or.inr (ih.mpr hseg)

theorem hasTriple_seg_mono {x y : Str} (h : x <:+: y) (hx : hasTriple x = true) :
    hasTriple y = true :=
  hasTriple_seg_iff.mpr ((hasTriple_seg_iff.mp hx).trans h)

theorem hasTriple_clean (t : Str) : hasTriple (stripAnnoyingLines t) = false := by
  by_contra h
  rw [Bool.not_eq_false] at h
  have h2 := hasTriple_seg_mono (trimJS_seg _) h
  rw [hasTriple_collapse] at h2
  exact absurd h2 (by simp)

/-- Claim C6, counterexample: on input whose blank lines use CR LF / lone CR
breaks, the cleaned result still re-splits into three consecutive empty lines,
so the claimed invariant "the result never contains 3 or more consecutive
blank lines" fails at this input. -/
theorem stripAnnoying_crBlankLines :
    threeConsecEmptyLines (splitLinesJS
      (stripAnnoyingLines "a\n\r\r\n\r\r\n\r\r\nb".data)) = true := by decide

/-- Claim C6 (amended): `stripAnnoyingLines` removes, case-insensitively, every
line matching either boilerplate regex (no line of the result matches either);
it collapses every run of three or more newline characters between non-newline
characters to exactly two (one blank line); the result has no leading or
trailing whitespace and never contains three consecutive newline characters
(the blank-line invariant stated at the newline level, which is what survives
carriage-return line breaks). -/
theorem stripAnnoying_spec :
    (∀ t : Str, ∀ l ∈ splitLinesJS (stripAnnoyingLines t),
      testNoRes l = false ∧ testM5 l = false) ∧
    (∀ t : Str, hasTriple (stripAnnoyingLines t) = false) ∧
    (∀ (t : Str) (c : Char), (stripAnnoyingLines t).head? = some c → isWs c = false) ∧
    (∀ (t : Str) (c : Char), (stripAnnoyingLines t).getLast? = some c → isWs c = false) ∧
    (∀ (a b : Char) (k : Nat), a ≠ '\n' → b ≠ '\n' → 3 ≤ k →
      collapseNl (a :: (List.replicate k '\n' ++ [b])) = a :: '\n' :: '\n' :: [b]) := by
  refine ⟨cleanLines_ok, hasTriple_clean, ?_, ?_, ?_⟩
  · intro t c h
    exact trimJS_head_notWs h
  · intro t c h
    exact trimJS_getLast_notWs h
  · intro a b k ha hb hk
    exact collapseRun ha hb hk

/-- Claim C6 witness: the amended specification evaluated at concrete inputs. -/
theorem stripAnnoying_spec_witness :
    (testNoRes "x".data = false ∧ testM5 "x".data = false) ∧
    hasTriple (stripAnnoyingLines "a\n\n\n\n\nb".data) = false ∧
    isWs 'a' = false ∧
    isWs 'b' = false ∧
    collapseNl ('a' :: (List.replicate 4 '\n' ++ ['b'])) = 'a' :: '\n' :: '\n' :: ['b'] := by
  refine ⟨?_, ?_, ?_, ?_, ?_⟩
  · exact stripAnnoying_spec.1 "x".data "x".data (by decide)
  · exact stripAnnoying_spec.2.1 "a\n\n\n\n\nb".data
  · exact stripAnnoying_spec.2.2.1 "  a ".data 'a' (by decide)
  · exact stripAnnoying_spec.2.2.2.1 " b  ".data 'b' (by decide)
  · exact stripAnnoying_spec.2.2.2.2 'a' 'b' 4 (by decide) (by decide) (by decide)

/-! ### Chunking -/

theorem chunksF_spec : ∀ (f : Nat) (l : Str), l.length ≤ f →
    (∀ c ∈ chunksF f l, c.length ≤ 1800) ∧ (chunksF f l).flatten = l := by
  intro f
  induction f with
  | zero =>
    intro l hl
    have : l = [] := List.length_eq_zero.mp (Nat.le_zero.mp hl)
    subst this
    exact ⟨by simp [chunksF], rfl⟩
  | succ f ih =>
    intro l hl
    cases l with
    | nil => exact ⟨by simp [chunksF], rfl⟩
    | cons c r =>
      have hdlen : ((c :: r).drop 1800).length ≤ f := by
        rw [List.length_drop]
        simp only [List.length_cons] at hl ⊢
        omega
      have hih := ih _ hdlen
      constructor
      · intro x hx
        rw [show chunksF (f + 1) (c :: r) =
            ((c :: r).take 1800) :: chunksF f ((c :: r).drop 1800) from rfl] at hx
        rcases List.mem_cons.mp hx with rfl | hx2
        · rw [List.length_take]
          exact Nat.min_le_left _ _
        · exact hih.1 x hx2
      · rw [show chunksF (f + 1) (c :: r) =
            ((c :: r).take 1800) :: chunksF f ((c :: r).drop 1800) from rfl]
        rw [List.flatten_cons, hih.2, List.take_append_drop]

/-- Claim C5, counterexample: a whitespace-only body yields no segments, so the
concatenation of the segments is empty and does not reproduce the original
text, contradicting the round-trip as claimed for whitespace-only text. -/
theorem notionRichText_wsOnly :
    notionRichText [' '] = [] ∧ (notionRichText [' ']).flatten ≠ ([' '] : Str) := by decide

/-- Claim C5 (amended): every segment produced by `notionRichText` has length
at most 1800; blank (empty or whitespace-only) text yields no segments; for any
other text the ordered segments concatenate back to the original text exactly. -/
theorem notionRichText_spec : ∀ s : Str,
    (∀ c ∈ notionRichText s, c.length ≤ 1800) ∧
    (trimJS s = [] → notionRichText s = []) ∧
    (trimJS s ≠ [] → (notionRichText s).flatten = s) := by
  intro s
  unfold notionRichText
  by_cases h : trimJS s = []
  · rw [if_pos h]
    exact ⟨by simp, fun _ => rfl, fun hne => absurd h hne⟩
  · rw [if_neg h]
    exact ⟨(chunksF_spec _ _ Nat.le.refl).1, fun hh => absurd hh h,
      fun _ => (chunksF_spec _ _ Nat.le.refl).2⟩

/-- Claim C5 witness: the amended specification evaluated at concrete inputs. -/
theorem notionRichText_spec_witness :
    notionRichText " ".data = [] ∧ (notionRichText "ab".data).flatten = "ab".data := by
  constructor
  · exact (notionRichText_spec " ".data).2.1 (by decide)
  · exact (notionRichText_spec "ab".data).2.2 (by decide)

/-! ### Parser lemmas -/

theorem parseLinesGo_fuelEq : ∀ (f g : Nat) (target : Str) (ls : List Str),
    ls.length ≤ f → ls.length ≤ g → parseLinesGo f target ls = parseLinesGo g target ls := by
  intro f
  induction f with
  | zero =>
    intro g target ls hf _
    have : ls = [] := List.length_eq_zero.mp (Nat.le_zero.mp hf)
    subst this
    cases g <;> rfl
  | succ f ih =>
    intro g target ls hf hg
    cases ls with
    | nil => cases g <;> rfl
    | cons l0 rest =>
      cases g with
      | zero => simp at hg
      | succ g =>
        cases hm : matchDateHeader (trimJS l0) with
        | none =>
          simp only [parseLinesGo, hm]
          exact ih g target rest (Nat.succ_le_succ_iff.mp hf) (Nat.succ_le_succ_iff.mp hg)
        | some d =>
          simp only [parseLinesGo, hm]
          congr 1
          have hlen : ((rest.drop 3).dropWhile fun x => !isDateHeaderLine x).length ≤
              rest.length := by
            refine Nat.le_trans (dwLenLe _ _) ?_
            rw [List.length_drop]
            omega
          exact ih g target _ (Nat.le_trans hlen (Nat.succ_le_succ_iff.mp hf))
            (Nat.le_trans hlen (Nat.succ_le_succ_iff.mp hg))

/-- Claim C4, counterexample: with two adjacent date headers, the second header
is consumed as the header-capture lines of the first; no entry is parsed for
the second date (the record is lost), and the first entry's location field is
the second date itself. -/
theorem adjacentHeaders_loseRecord :
    parseWodPage "#### 01/01/2024\n#### 02/01/2024".data "02/01/2024".data = [] ∧
    parseWodPage "#### 01/01/2024\n#### 02/01/2024".data "01/01/2024".data =
      [{ date := "01/01/2024".data, loc := "02/01/2024".data, program := [],
         body := [] }] := by decide

/-- Claim C4 (amended): a date header whose record block is complete — the next
date header appears at line offset 4 or more, with no body lines in between —
yields an entry with an empty body, and the following date header is still
processed as the start of a new record; but a date header occurring within the
three header-capture lines is consumed by them instead (counterexample above). -/
theorem parseLines_headerBlock {target l0 x1 x2 x3 r0 d : Str} {rest : List Str}
    (h0 : matchDateHeader (trimJS l0) = some d) (h1 : isDateHeaderLine r0 = true) :
    parseLines target (l0 :: x1 :: x2 :: x3 :: r0 :: rest) =
      (if d = target then
        [{ date := d, loc := trimJS (stripHeaderMarks (trimJS x2)),
           program := trimJS (stripHeaderMarks (trimJS x3)), body := [] }]
       else []) ++ parseLines target (r0 :: rest) := by
  unfold parseLines
  simp only [List.length_cons]
  conv_lhs => simp only [parseLinesGo, h0]
  rw [show (x1 :: x2 :: x3 :: r0 :: rest)[1]? = some x2 from rfl,
    show (x1 :: x2 :: x3 :: r0 :: rest)[2]? = some x3 from rfl,
    show (x1 :: x2 :: x3 :: r0 :: rest).drop 3 = r0 :: rest from rfl]
  simp only [Option.getD_some]
  rw [List.takeWhile_cons_of_neg (by rw [h1]; simp),
    List.dropWhile_cons_of_neg (by rw [h1]; simp)]
  congr 1
  apply parseLinesGo_fuelEq
  · simp only [List.length_cons]
    omega
  · simp only [List.length_cons]
    omega

/-- Claim C4 witness: the amended block equation at a concrete input. -/
theorem parseLines_headerBlock_witness :
    parseLines "01/01/2024".data
      ["#### 01/01/2024".data, "a".data, "#### Gym".data, "#### CrossFit".data,
       "#### 02/01/2024".data] =
      [{ date := "01/01/2024".data, loc := "Gym".data, program := "CrossFit".data,
         body := [] }] ++ parseLines "01/01/2024".data ["#### 02/01/2024".data] := by
  rw [@parseLines_headerBlock "01/01/2024".data "#### 01/01/2024".data "a".data
    "#### Gym".data "#### CrossFit".data "#### 02/01/2024".data "01/01/2024".data []
    (by decide) (by decide)]
  decide

theorem orElse_getD (o1 o2 : Option Str) :
    ((o1.orElse fun _ => o2).orElse fun _ => some []) = some (o1.getD (o2.getD [])) := by
  cases o1 <;> cases o2 <;> rfl

theorem parseLinesGoE_ok : ∀ (f : Nat) (target : Str) (ls : List Str),
    parseLinesGoE f target ls = Except.ok (parseLinesGo f target ls) := by
  intro f
  induction f with
  | zero => intro target ls; rfl
  | succ f ih =>
    intro target ls
    cases ls with
    | nil => rfl
    | cons l0 rest =>
      cases hm : matchDateHeader (trimJS l0) with
      | none =>
        simp only [parseLinesGoE, parseLinesGo, hm]
        exact ih target rest
      | some d =>
        simp only [parseLinesGoE, parseLinesGo, hm, orElse_getD, jsTrimE, ih]

theorem parseLines_headerAtEnd {target l0 d : Str} (h0 : matchDateHeader (trimJS l0) = some d)
    (ht : d = target) :
    parseLines target [l0] = [{ date := d, loc := [], program := [], body := [] }] := by
  unfold parseLines
  simp only [List.length_cons, List.length_nil]
  conv_lhs => simp only [parseLinesGo, h0]
  rw [if_pos ht]
  rfl

theorem parseLines_headerOneLine {target l0 x d : Str}
    (h0 : matchDateHeader (trimJS l0) = some d) (ht : d = target) :
    parseLines target [l0, x] =
      [{ date := d, loc := trimJS (stripHeaderMarks (trimJS x)), program := [],
         body := [] }] := by
  unfold parseLines
  simp only [List.length_cons, List.length_nil]
  conv_lhs => simp only [parseLinesGo, h0]
  rw [if_pos ht]
  rfl

/-- Claim C8: the parser never raises — the exception-aware model (where
calling `.trim()` on an out-of-range, `undefined` line would throw) always
returns `ok` with the entries of the total parser — and at the boundary the
`?? `-fallbacks apply: a date header that ends the input yields an entry with
empty location and program, and a date header followed by a single line uses
that adjacent line as the location and the empty string as the program. -/
theorem parseWodPage_total_and_fallback :
    (∀ markdown target : Str,
      parseWodPageE markdown target = Except.ok (parseWodPage markdown target)) ∧
    (∀ target l0 d : Str, matchDateHeader (trimJS l0) = some d → d = target →
      parseLines target [l0] = [{ date := d, loc := [], program := [], body := [] }]) ∧
    (∀ target l0 x d : Str, matchDateHeader (trimJS l0) = some d → d = target →
      parseLines target [l0, x] =
        [{ date := d, loc := trimJS (stripHeaderMarks (trimJS x)), program := [],
           body := [] }]) := by
  refine ⟨?_, ?_, ?_⟩
  · intro markdown target
    exact parseLinesGoE_ok _ target _
  · intro target l0 d h0 ht
    exact parseLines_headerAtEnd h0 ht
  · intro target l0 x d h0 ht
    exact parseLines_headerOneLine h0 ht

/-- Claim C8 witness: the no-raise equation and the two fallback shapes at
concrete inputs. -/
theorem parseWodPage_total_and_fallback_witness :
    parseWodPageE "#### 01/01/2024".data "01/01/2024".data =
      Except.ok (parseWodPage "#### 01/01/2024".data "01/01/2024".data) ∧
    parseLines "01/01/2024".data ["#### 01/01/2024".data] =
      [{ date := "01/01/2024".data, loc := [], program := [], body := [] }] ∧
    parseLines "01/01/2024".data ["#### 01/01/2024".data, "Gym".data] =
      [{ date := "01/01/2024".data, loc := trimJS (stripHeaderMarks (trimJS "Gym".data)),
         program := [], body := [] }] := by
  refine ⟨?_, ?_, ?_⟩
  · exact parseWodPage_total_and_fallback.1 "#### 01/01/2024".data "01/01/2024".data
  · exact parseWodPage_total_and_fallback.2.1 "01/01/2024".data "#### 01/01/2024".data
      "01/01/2024".data (by decide) rfl
  · exact parseWodPage_total_and_fallback.2.2 "01/01/2024".data "#### 01/01/2024".data
      "Gym".data "01/01/2024".data (by decide) rfl

/-! ### Pagination -/

theorem inspectGo_spec (children : List Block) : ∀ (f c : Nat) (acc : List Block),
    children.length ≤ c + 100 * f → inspectGo children f c acc = acc ++ children.drop c := by
  intro f
  induction f with
  | zero =>
    intro c acc h
    rw [Nat.mul_zero, Nat.add_zero] at h
    rw [List.drop_eq_nil_of_le h]
    simp [inspectGo]
  | succ f ih =>
    intro c acc h
    simp only [inspectGo, listChildrenPage]
    by_cases hmore : c + 100 < children.length
    · rw [if_pos (by simpa using hmore)]
      rw [ih (c + 100) _ (by omega)]
      rw [List.append_assoc]
      congr 1
      have hdd : children.drop (c + 100) = (children.drop c).drop 100 := by
        rw [List.drop_drop]
      rw [hdd, List.take_append_drop]
    · rw [if_neg (by simpa using hmore)]
      congr 1
      have hlen : (children.drop c).length ≤ 100 := by
        rw [List.length_drop]
        omega
      exact List.take_of_length_le hlen

theorem inspectAllBlocks_eq (children : List Block) : inspectAllBlocks children = children := by
  unfold inspectAllBlocks
  rw [inspectGo_spec children (children.length + 1) 0 [] (by omega)]
  simp

/-- Claim C3, counterexample: with 101 children whose `child_database` block is
the 101st, the single-page container discovery fails with the configuration
error even though the block exists — and the diagnostic lister, which does
iterate pagination to completion, sees it.  This refutes the claim that every
caller iterates cursor pagination to completion. -/
theorem discovery_misses_secondPage :
    getChildDatabaseIdM (List.replicate 100 { id := "p".data, type := "paragraph".data } ++
      [{ id := "db1".data, type := "child_database".data }]) =
      Except.error "No child_database found under target page.".data ∧
    ({ id := "db1".data, type := "child_database".data } : Block) ∈
      inspectAllBlocks (List.replicate 100 { id := "p".data, type := "paragraph".data } ++
        [{ id := "db1".data, type := "child_database".data }]) := by
  constructor
  · rfl
  · decide

/-- Claim C3 (amended): the diagnostic lister iterates cursor pagination to
completion — it requests pages of up to 100 from the last returned cursor until
the API signals no further pages, and processes exactly the full child list —
while container discovery issues a single `page_size=100` request and inspects
only the first page (its result depends only on the first 100 children). -/
theorem pagination_behavior :
    (∀ children : List Block, inspectAllBlocks children = children) ∧
    (∀ children : List Block,
      getChildDatabaseIdM children = getChildDatabaseIdM (children.take 100)) := by
  refine ⟨inspectAllBlocks_eq, ?_⟩
  intro children
  unfold getChildDatabaseIdM listChildrenPage
  simp [List.take_take]

/-! ### Sync engine -/

theorem syncLoop_counts (iso : Str) (existing : List Str) :
    ∀ (es : List WodEntry) (c s : Nat) (recs : List DbRecord),
    (syncLoop iso existing es (c, s, recs)).1 + (syncLoop iso existing es (c, s, recs)).2.1 =
      c + s + es.length := by
  intro es
  induction es with
  | nil =>
    intro c s recs
    simp [syncLoop]
  | cons e es ih =>
    intro c s recs
    by_cases hmem : existing.contains (keyOfEntry e)
    · rw [show syncLoop iso existing (e :: es) (c, s, recs) =
          syncLoop iso existing es (c, s + 1, recs) by rw [syncLoop, if_pos hmem]]
      rw [ih]
      simp only [List.length_cons]
      omega
    · rw [show syncLoop iso existing (e :: es) (c, s, recs) =
          syncLoop iso existing es (c + 1, s, recs ++ [createWodRow iso e]) by
        rw [syncLoop, if_neg hmem]]
      rw [ih]
      simp only [List.length_cons]
      omega

/-- Claim C10: the create/skip loop increments exactly one of the two counters
per entry, so every completed run satisfies `created + skipped = N`, both for a
bare sync pass and for a `main` run that returns successfully. -/
theorem sync_counts_partition :
    (∀ (iso : Str) (entries : List WodEntry) (records : List DbRecord),
      (syncOnce iso entries records).1 + (syncOnce iso entries records).2.1 =
        entries.length) ∧
    (∀ (md iso : Str) (w : World) (res : Nat × Nat) (ops : List NotionOp)
      (recs : List DbRecord), mainModel md iso w = (Except.ok res, ops, recs) →
      res.1 + res.2 = (parseWodPage md (ddmmyyyyFromISO iso)).length) := by
  constructor
  · intro iso entries records
    unfold syncOnce
    rw [syncLoop_counts]
    omega
  · intro md iso w res ops recs h
    unfold mainModel at h
    by_cases hemp : (parseWodPage md (ddmmyyyyFromISO iso)).isEmpty
    · rw [if_pos hemp] at h
      rw [Prod.mk.injEq] at h
      exact absurd h.1 (by simp)
    · rw [if_neg hemp] at h
      cases hdb : getChildDatabaseIdM w.children with
      | error e =>
        rw [hdb] at h
        rw [Prod.mk.injEq] at h
        exact absurd h.1 (by simp)
      | ok dbid =>
        rw [hdb] at h
        rw [Prod.mk.injEq] at h
        have hres := h.1
        rw [Except.ok.injEq] at hres
        rw [← hres]
        have := syncLoop_counts iso (queryExistingForDate iso w.records)
          (parseWodPage md (ddmmyyyyFromISO iso)) 0 0 w.records
        simpa using this

/-- Claim C10 witness: a successful end-to-end run at a concrete input
satisfies the counter partition. -/
theorem sync_counts_partition_witness :
    (1 : Nat) + 0 =
      (parseWodPage "#### 01/02/2026\na\nb\nc\nbody".data
        (ddmmyyyyFromISO "2026-02-01".data)).length := by
  exact sync_counts_partition.2 "#### 01/02/2026\na\nb\nc\nbody".data "2026-02-01".data
    ⟨[{ id := "db".data, type := "child_database".data }], []⟩ (1, 0)
    [NotionOp.listChildren, NotionOp.query, NotionOp.create]
    [createWodRow "2026-02-01".data
      { date := "01/02/2026".data, loc := "b".data, program := "c".data,
        body := "body".data }]
    (by rfl)

/-- Claim C7: when zero parsed entries match the target date, `main` fails with
the descriptive error immediately — the operation trace is empty, so no
container discovery, store query or create request is ever issued, and the
stored records are untouched. -/
theorem zero_entries_failsEarly :
    ∀ (md iso : Str) (w : World), parseWodPage md (ddmmyyyyFromISO iso) = [] →
    mainModel md iso w =
      (Except.error (noEntriesMsg (ddmmyyyyFromISO iso)), [], w.records) := by
  intro md iso w h
  simp only [mainModel]
  rw [h]
  rfl

/-- Claim C7 witness: the early failure at a concrete empty page. -/
theorem zero_entries_failsEarly_witness :
    mainModel [] "2026-02-01".data ⟨[], []⟩ =
      (Except.error (noEntriesMsg (ddmmyyyyFromISO "2026-02-01".data)), [],
        ([] : List DbRecord)) :=
  zero_entries_failsEarly [] "2026-02-01".data ⟨[], []⟩ (by decide)

/-- Claim C9: `queryExistingForDate` issues a single `page_size: 100` query and
never follows a cursor, so the derived key set is exactly the keys of the first
at most 100 matching rows; with 101 matching rows of pairwise distinct keys,
the 101st key is absent from the derived set although its row is stored for
the date. -/
theorem queryExisting_firstPageOnly :
    (∀ (records : List DbRecord) (iso : Str),
      queryExistingForDate iso records =
        ((records.filter fun r => r.date == iso).take 100).map keyOfRecord) ∧
    keyOfRecord (c9row 100) ∉
      queryExistingForDate "2026-02-01".data ((List.range 101).map c9row) ∧
    c9row 100 ∈ (List.range 101).map c9row ∧
    (c9row 100).date = "2026-02-01".data := by
  refine ⟨?_, by decide, by decide, by decide⟩
  intro records iso
  unfold queryExistingForDate databaseQueryPage
  rw [List.drop_zero]

/-- Claim C1: idempotency fails for entries whose program field is empty.  The
first run stores the row under the `'WOD'` placeholder type, but the dedup key
of the second run compares against the raw empty program, so the second run
re-creates the row: it reports `created = 1, skipped = 0` instead of the
claimed `created = 0, skipped = 1`, and the stored record set grows. -/
theorem sync_recreates_empty_program :
    syncOnce "2026-02-01".data
      [{ date := "01/02/2026".data, loc := "A".data, program := [], body := "x".data }]
      [] =
      (1, 0, [createWodRow "2026-02-01".data
        { date := "01/02/2026".data, loc := "A".data, program := [], body := "x".data }]) ∧
    syncOnce "2026-02-01".data
      [{ date := "01/02/2026".data, loc := "A".data, program := [], body := "x".data }]
      [createWodRow "2026-02-01".data
        { date := "01/02/2026".data, loc := "A".data, program := [], body := "x".data }] =
      (1, 0,
        [createWodRow "2026-02-01".data
          { date := "01/02/2026".data, loc := "A".data, program := [], body := "x".data },
         createWodRow "2026-02-01".data
          { date := "01/02/2026".data, loc := "A".data, program := [], body := "x".data }]) := by
  constructor
  · rfl
  · rfl

/-- Claim C2: two entries with the same `(location, program)` key in one run
both trigger a create — the existing-key set is never updated inside the loop —
so the run reports `created = 2` and stores two rows for the same key,
contradicting the claimed at-most-one create per key per run. -/
theorem sync_duplicate_entries_both_create :
    syncOnce "2026-02-01".data
      [{ date := "01/02/2026".data, loc := "A".data, program := "CrossFit".data,
         body := "x".data },
       { date := "01/02/2026".data, loc := "A".data, program := "CrossFit".data,
         body := "x".data }]
      [] =
      (2, 0,
        [createWodRow "2026-02-01".data
          { date := "01/02/2026".data, loc := "A".data, program := "CrossFit".data,
            body := "x".data },
         createWodRow "2026-02-01".data
          { date := "01/02/2026".data, loc := "A".data, program := "CrossFit".data,
            body := "x".data }]) := rfl
